import Mathlib

/-!
Verification of the calibration core of the GIS viewer.

The definitions below are a shallow embedding of the numerical core of the
application: the affine calibration state machine (`calculateTransform`,
`calculateAffineTransform`, `leastSquares`, `gaussianElimination`), the
coordinate conversions (`pixelToGeo`, `geoToPixel`) and the Haversine
distance.  Machine floats are modelled by exact rationals `ℚ`; a second
model (`EJS`) with IEEE-style non-finite values `inf`, `ninf`, `nan` is used
where non-finite propagation itself is the property under study.
-/

namespace GIS

set_option maxRecDepth 100000

/-- The near-zero tolerance `1e-10` used throughout the source. -/
def tol : ℚ := 1 / 10000000000

/-- Image-space point `{x, y}`. -/
structure PixelPoint where
  x : ℚ
  y : ℚ
deriving DecidableEq, Inhabited

/-- Geographic point `{lat, lng}`. -/
structure GeoPoint where
  lat : ℚ
  lng : ℚ
deriving DecidableEq, Inhabited

/-- One user-supplied correspondence `{pixel: {x,y}, geo: {lat,lng}}`. -/
structure RefPoint where
  pixel : PixelPoint
  geo : GeoPoint
deriving DecidableEq, Inhabited

/-- The six affine coefficients `{a, b, c, d, e, f}` with
`lat = a·x + b·y + c` and `lng = d·x + e·y + f`. -/
structure AffineT where
  a : ℚ
  b : ℚ
  c : ℚ
  d : ℚ
  e : ℚ
  f : ℚ
deriving DecidableEq, Inhabited

/-- Determinant `a·e − b·d` of the linear part of the transform. -/
def det (t : AffineT) : ℚ := t.a * t.e - t.b * t.d

/-- The calibration-relevant fields of the `GISViewer` object:
`this.referencePoints`, `this.isCalibrated`, `this.transform`. -/
structure GISState where
  referencePoints : List RefPoint
  isCalibrated : Bool
  transform : Option AffineT
deriving DecidableEq, Inhabited

/-- Source `pixelToGeo(x, y)`: `null` when `!this.isCalibrated || !this.transform`,
otherwise the forward affine image. -/
def pixelToGeo (st : GISState) (x y : ℚ) : Option GeoPoint :=
  match st.isCalibrated, st.transform with
  | true, some t => some ⟨t.a * x + t.b * y + t.c, t.d * x + t.e * y + t.f⟩
  | _, _ => none

/-- Source `geoToPixel(lat, lng)`: `null` when `!this.isCalibrated || !this.transform`
or when `|det| < 1e-10`, otherwise the Cramer-rule inverse image. -/
def geoToPixel (st : GISState) (lat lng : ℚ) : Option PixelPoint :=
  match st.isCalibrated, st.transform with
  | true, some t =>
    if |det t| < tol then none
    else some ⟨(t.e * (lat - t.c) - t.b * (lng - t.f)) / det t,
               (t.a * (lng - t.f) - t.d * (lat - t.c)) / det t⟩
  | _, _ => none

/-! ### The Gaussian elimination solver

`gaussianElimination(A, b)` from the source mutates the arrays `A` and `b`
in place during forward elimination.  The embedding threads the pair
`(A, b)` explicitly and also returns the final contents of the two arrays,
so that statements about caller-visible mutation can be made. -/

/-- The `(A, b)` pair of arrays mutated by the elimination. -/
abbrev LinSt (n : ℕ) := (Fin n → Fin n → ℚ) × (Fin n → ℚ)

/-- Partial-pivot selection for column `i`: scan `k = i+1 … n−1`, keeping
`k` whenever `|A[k][i]| > |A[maxRow][i]|` (so the first row attaining the
maximum wins, starting from `maxRow = i`). -/
def maxRowIdx {n : ℕ} (A : Fin n → Fin n → ℚ) (i : Fin n) : Fin n :=
  ((List.finRange n).filter (fun k => i < k)).foldl
    (fun best k => if |A best i| < |A k i| then k else best) i

/-- Swap rows `r` and `s` of the matrix. -/
def swapRows {n : ℕ} (A : Fin n → Fin n → ℚ) (r s : Fin n) :
    Fin n → Fin n → ℚ :=
  fun k => if k = r then A s else if k = s then A r else A k

/-- Swap entries `r` and `s` of the vector. -/
def swapVec {n : ℕ} (b : Fin n → ℚ) (r s : Fin n) : Fin n → ℚ :=
  fun k => if k = r then b s else if k = s then b r else b k

/-- One pivot step of the elimination loop body at column `i`: select the
pivot row, swap it into place, fail (first component `false`) when the
pivot magnitude is below `1e-10`, otherwise eliminate column `i` from all
rows `k > i` (updating entries `j ≥ i`, exactly as the `for (let j = i; …)`
loop does).  The returned state is the content of the arrays when the loop
body exits, including in the failure case (the swap has already happened). -/
def elimStep {n : ℕ} (i : Fin n) (st : LinSt n) : Bool × LinSt n :=
  let m := maxRowIdx st.1 i
  let A := swapRows st.1 i m
  let b := swapVec st.2 i m
  if |A i i| < tol then (false, (A, b))
  else
    (true,
     (fun k j => if i < k ∧ i ≤ j then A k j - A k i / A i i * A i j else A k j,
      fun k => if i < k then b k - A k i / A i i * b i else b k))

/-- The `for (let i = 0; i < n; i++)` forward-elimination loop, with the
remaining iteration count as structural fuel. -/
def forwardAux {n : ℕ} : ℕ → ℕ → LinSt n → Bool × LinSt n
  | 0, _, st => (true, st)
  | fuel + 1, i, st =>
    if h : i < n then
      if (elimStep ⟨i, h⟩ st).1 then forwardAux fuel (i + 1) (elimStep ⟨i, h⟩ st).2
      else (false, (elimStep ⟨i, h⟩ st).2)
    else (true, st)

/-- The whole forward elimination, starting at column `0` with fuel `n`. -/
def forward {n : ℕ} (st : LinSt n) : Bool × LinSt n :=
  forwardAux n 0 st

/-- The `for (let i = n - 1; i >= 0; i--)` back-substitution loop:
`backSubAux A b m x` still has to process rows `m−1, …, 0`; each step sets
`x[i] = (b[i] − Σ_{j>i} A[i][j]·x[j]) / A[i][i]`. -/
def backSubAux {n : ℕ} (A : Fin n → Fin n → ℚ) (b : Fin n → ℚ) :
    ℕ → (Fin n → ℚ) → (Fin n → ℚ)
  | 0, x => x
  | m + 1, x =>
    if h : m < n then
      let i : Fin n := ⟨m, h⟩
      backSubAux A b m
        (Function.update x i ((b i - ∑ j ∈ Finset.Ioi i, A i j * x j) / A i i))
    else backSubAux A b m x

/-- Back substitution over the eliminated system, starting from the
all-zero solution array `Array(n).fill(0)`. -/
def backSub {n : ℕ} (A : Fin n → Fin n → ℚ) (b : Fin n → ℚ) : Fin n → ℚ :=
  backSubAux A b n (fun _ => 0)

/-- Source `gaussianElimination(A, b)` together with the final contents of the two
caller-supplied arrays: `null` (modelled `none`) on a near-zero pivot,
otherwise the back-substituted solution. -/
def gaussianEliminationSt {n : ℕ} (A : Fin n → Fin n → ℚ) (b : Fin n → ℚ) :
    Option (Fin n → ℚ) × LinSt n :=
  let r := forward (A, b)
  (if r.1 then some (backSub r.2.1 r.2.2) else none, r.2)

/-- The return value of `gaussianElimination(A, b)`. -/
def gaussianElimination {n : ℕ} (A : Fin n → Fin n → ℚ) (b : Fin n → ℚ) :
    Option (Fin n → ℚ) :=
  (gaussianEliminationSt A b).1

/-! ### Least squares and the calibration state machine -/

/-- Source `leastSquares(A, b)`: accumulate the normal equations
`AᵗA` (`d×d`) and `Aᵗb` (`d`-vector) by the triple `for` loop over all
rows, then solve with `gaussianElimination`.  The `+=` accumulation over
rows `k = 0 … m−1` is a left fold starting from `0`. -/
def leastSquares {d : ℕ} (A : List (Fin d → ℚ)) (b : List ℚ) :
    Option (Fin d → ℚ) :=
  let AtA : Fin d → Fin d → ℚ :=
    fun i j => (A.map (fun row => row i * row j)).foldl (· + ·) 0
  let Atb : Fin d → ℚ :=
    fun i => (List.zipWith (fun row v => row i * v) A b).foldl (· + ·) 0
  gaussianElimination AtA Atb

/-- The design-matrix row `[p.pixel.x, p.pixel.y, 1]` of one reference
point. -/
def designRow (p : RefPoint) : Fin 3 → ℚ := ![p.pixel.x, p.pixel.y, 1]

/-- Source `calculateAffineTransform()`: build the design matrix and the two
right-hand sides, run `leastSquares` for latitude and longitude, and
overwrite `this.transform` only when both solves succeed. -/
def calculateAffineTransform (st : GISState) : GISState :=
  let A := st.referencePoints.map designRow
  let bLat := st.referencePoints.map (fun p => p.geo.lat)
  let bLng := st.referencePoints.map (fun p => p.geo.lng)
  match leastSquares A bLat, leastSquares A bLng with
  | some latC, some lngC =>
    { st with
      transform := some ⟨latC 0, latC 1, latC 2, lngC 0, lngC 1, lngC 2⟩ }
  | _, _ => st

/-- Source `calculateTransform()`: fewer than 2 points clears the calibration;
exactly 2 points take the closed-form shortcut (with the degenerate-delta
early return that leaves `this.transform` untouched); 3 or more points
delegate to `calculateAffineTransform`.  Except on the two early returns,
the method ends with `this.isCalibrated = true`. -/
def calculateTransform (st : GISState) : GISState :=
  if st.referencePoints.length < 2 then
    { st with isCalibrated := false, transform := none }
  else if st.referencePoints.length = 2 then
    let p1 := st.referencePoints.getD 0 default
    let p2 := st.referencePoints.getD 1 default
    let dx := p2.pixel.x - p1.pixel.x
    let dy := p2.pixel.y - p1.pixel.y
    let dLat := p2.geo.lat - p1.geo.lat
    let dLng := p2.geo.lng - p1.geo.lng
    if |dx| < tol ∧ |dy| < tol then
      { st with isCalibrated := false }
    else
      let scaleLat := dLat / dy
      let scaleLng := dLng / dx
      { st with
        transform := some ⟨0, scaleLat, p1.geo.lat - scaleLat * p1.pixel.y,
                           scaleLng, 0, p1.geo.lng - scaleLng * p1.pixel.x⟩,
        isCalibrated := true }
  else
    { calculateAffineTransform st with isCalibrated := true }

/-! ### An IEEE-style model of JS numbers

Where the property under study is the production and propagation of
non-finite values, rationals are not enough.  `EJS` models a JS number as
an exact rational (finite-value rounding is not modelled), `Infinity`,
`-Infinity` or `NaN`, with the IEEE-754 special-value rules used by JS
arithmetic.  A zero produced by subtraction of equal finite values is
`+0`, so a zero divisor coming from a pixel delta behaves as `+0`. -/

inductive EJS : Type
  | fin (q : ℚ)
  | inf
  | ninf
  | nan
deriving DecidableEq, Inhabited

namespace EJS

/-- Whether the value is finite. -/
def isFinite : EJS → Bool
  | fin _ => true
  | _ => false

/-- IEEE addition on extended values (exact on finite operands). -/
def add : EJS → EJS → EJS
  | fin p, fin q => fin (p + q)
  | fin _, inf => inf
  | inf, fin _ => inf
  | fin _, ninf => ninf
  | ninf, fin _ => ninf
  | inf, inf => inf
  | ninf, ninf => ninf
  | _, _ => nan

/-- IEEE negation. -/
def neg : EJS → EJS
  | fin p => fin (-p)
  | inf => ninf
  | ninf => inf
  | nan => nan

/-- IEEE subtraction `x − y = x + (−y)`. -/
def sub (x y : EJS) : EJS := add x (neg y)

/-- IEEE multiplication; `±Infinity · 0 = NaN`. -/
def mul : EJS → EJS → EJS
  | fin p, fin q => fin (p * q)
  | fin p, inf => if 0 < p then inf else if p < 0 then ninf else nan
  | inf, fin p => if 0 < p then inf else if p < 0 then ninf else nan
  | fin p, ninf => if 0 < p then ninf else if p < 0 then inf else nan
  | ninf, fin p => if 0 < p then ninf else if p < 0 then inf else nan
  | inf, inf => inf
  | inf, ninf => ninf
  | ninf, inf => ninf
  | ninf, ninf => inf
  | _, _ => nan

/-- IEEE division; a finite value divided by `+0` gives a signed infinity
(`0/0 = NaN`), and `±Infinity / finite` keeps the (positive-zero) sign
convention. -/
def div : EJS → EJS → EJS
  | fin p, fin q =>
    if q = 0 then (if 0 < p then inf else if p < 0 then ninf else nan)
    else fin (p / q)
  | fin _, inf => fin 0
  | fin _, ninf => fin 0
  | inf, fin p => if 0 ≤ p then inf else ninf
  | ninf, fin p => if 0 ≤ p then ninf else inf
  | _, _ => nan

end EJS

/-- The transform object with JS-number entries. -/
structure EAffineT where
  a : EJS
  b : EJS
  c : EJS
  d : EJS
  e : EJS
  f : EJS
deriving DecidableEq, Inhabited

/-- The two-point branch of `calculateTransform()` evaluated in the `EJS`
model, for finite (rational-valued) reference points.  `none` models the
early return that sets `isCalibrated = false` and leaves `this.transform`
untouched; `some t` models storing the transform and falling through to
`isCalibrated = true`. -/
def calibrate2E (p1 p2 : RefPoint) : Option EAffineT :=
  let dx := p2.pixel.x - p1.pixel.x
  let dy := p2.pixel.y - p1.pixel.y
  let dLat := p2.geo.lat - p1.geo.lat
  let dLng := p2.geo.lng - p1.geo.lng
  if |dx| < tol ∧ |dy| < tol then none
  else
    let scaleLat := EJS.div (.fin dLat) (.fin dy)
    let scaleLng := EJS.div (.fin dLng) (.fin dx)
    some ⟨.fin 0, scaleLat,
          EJS.sub (.fin p1.geo.lat) (EJS.mul scaleLat (.fin p1.pixel.y)),
          scaleLng, .fin 0,
          EJS.sub (.fin p1.geo.lng) (EJS.mul scaleLng (.fin p1.pixel.x))⟩

/-- The forward affine equations of `pixelToGeo` in the `EJS` model, with
the left-to-right evaluation order `a*x + b*y + c` of the source. -/
def pixelToGeoE (t : EAffineT) (x y : EJS) : EJS × EJS :=
  (EJS.add (EJS.add (EJS.mul t.a x) (EJS.mul t.b y)) t.c,
   EJS.add (EJS.add (EJS.mul t.d x) (EJS.mul t.e y)) t.f)

/-! ### Haversine distance -/

noncomputable section

/-- JS `Math.atan2(y, x)`, modelled by the complex argument. -/
def atan2 (y x : ℝ) : ℝ := Complex.arg ⟨x, y⟩

/-- Degrees to radians, `x * Math.PI / 180`. -/
def toRad (x : ℝ) : ℝ := x * Real.pi / 180

/-- The intermediate `a` of `haversineDistance`. -/
def havA (lat1 lng1 lat2 lng2 : ℝ) : ℝ :=
  Real.sin (toRad (lat2 - lat1) / 2) * Real.sin (toRad (lat2 - lat1) / 2) +
    Real.cos (toRad lat1) * Real.cos (toRad lat2) *
      (Real.sin (toRad (lng2 - lng1) / 2) * Real.sin (toRad (lng2 - lng1) / 2))

/-- Source `haversineDistance(lat1, lng1, lat2, lng2)`: Earth radius `6371000` m,
degree inputs converted to radians. -/
def haversineDistance (lat1 lng1 lat2 lng2 : ℝ) : ℝ :=
  let a := havA lat1 lng1 lat2 lng2
  let c := 2 * atan2 (Real.sqrt a) (Real.sqrt (1 - a))
  6371000 * c

end

/-! ### Spec-side definitions (for refinement claims)

These two definitions follow the wording of the specification, not the
source; the corresponding theorems compare them with the source-derived
definitions above. -/

/-- The closed-form two-point transform exactly as the spec words it:
`a=0, b=scaleLat, c=lat₁−scaleLat·y₁, d=scaleLng, e=0, f=lng₁−scaleLng·x₁`
with `scaleLat = Δlat/Δy`, `scaleLng = Δlng/Δx`. -/
def twoPointSpec (p1 p2 : RefPoint) : AffineT :=
  let scaleLat := (p2.geo.lat - p1.geo.lat) / (p2.pixel.y - p1.pixel.y)
  let scaleLng := (p2.geo.lng - p1.geo.lng) / (p2.pixel.x - p1.pixel.x)
  ⟨0, scaleLat, p1.geo.lat - scaleLat * p1.pixel.y,
   scaleLng, 0, p1.geo.lng - scaleLng * p1.pixel.x⟩

/-- Spec-side normal matrix: `AᵗA i j = Σ_k A[k][i]·A[k][j]` summed over
all points, with design rows `[x_k, y_k, 1]`. -/
def normalMatrix (pts : List RefPoint) : Fin 3 → Fin 3 → ℚ :=
  fun i j => ∑ k ∈ Finset.range pts.length,
    designRow (pts.getD k default) i * designRow (pts.getD k default) j

/-- Spec-side normal vector: `Aᵗb i = Σ_k A[k][i]·b[k]` for the per-axis
observation `g` of each point. -/
def normalVector (pts : List RefPoint) (g : RefPoint → ℚ) : Fin 3 → ℚ :=
  fun i => ∑ k ∈ Finset.range pts.length,
    designRow (pts.getD k default) i * g (pts.getD k default)

/-- Spec-side description of the `n ≥ 3` fit: solve the two
normal-equation systems with the Gaussian solver and combine the two
coefficient triples into the six transform coefficients. -/
def leastSquaresSpec (pts : List RefPoint) : Option AffineT :=
  match gaussianElimination (normalMatrix pts) (normalVector pts (fun p => p.geo.lat)),
        gaussianElimination (normalMatrix pts) (normalVector pts (fun p => p.geo.lng)) with
  | some latC, some lngC => some ⟨latC 0, latC 1, latC 2, lngC 0, lngC 1, lngC 2⟩
  | _, _ => none

/-- The predicate the source tests before every conversion:
`!this.isCalibrated || !this.transform`.  It is the embedding of the
spec's `Uncalibrated` state as observed by the conversion functions. -/
def Uncalibrated (st : GISState) : Prop :=
  st.isCalibrated = false ∨ st.transform = none

/-! ### Concrete instances used by witnesses and counterexamples -/

/-- Three reference points whose pixels `(0,0)`, `(10,10)`, `(20,20)` are
collinear; the geographic values follow the same line. -/
def collinearState : GISState :=
  ⟨[⟨⟨0, 0⟩, ⟨10, 20⟩⟩, ⟨⟨10, 10⟩, ⟨11, 21⟩⟩, ⟨⟨20, 20⟩, ⟨12, 22⟩⟩],
   false, none⟩

/-- A calibrated state with the identity-like transform
`lat = x`, `lng = y`. -/
def tId : AffineT := ⟨1, 0, 0, 0, 1, 0⟩

/-- A calibrated state holding `tId`. -/
def stCal : GISState := ⟨[], true, some tId⟩

/-- Two reference points with `Δx = 10`, `Δy = 0` and differing
latitudes: the input of the one-sided-degeneracy claim. -/
def pHor1 : RefPoint := ⟨⟨0, 0⟩, ⟨0, 0⟩⟩

/-- Second point of the one-sided-degeneracy pair. -/
def pHor2 : RefPoint := ⟨⟨10, 0⟩, ⟨1, 1⟩⟩

/-- The state holding the one-sided-degeneracy pair. -/
def stHor : GISState := ⟨[pHor1, pHor2], false, none⟩

/-- A 2×2 matrix whose elimination requires a row swap. -/
def cA : Fin 2 → Fin 2 → ℚ := ![![0, 1], ![2, 0]]

/-- Right-hand side for `cA`. -/
def cb : Fin 2 → ℚ := ![3, 4]

/-- The solution of `cA · x = cb`. -/
def cx : Fin 2 → ℚ := ![2, 3]

/-- A 2×2 matrix that the solver visibly mutates (the pivot search swaps
its rows). -/
def mA : Fin 2 → Fin 2 → ℚ := ![![1, 2], ![3, 4]]

/-- Right-hand side for `mA`, with distinct entries so the swap shows. -/
def mb : Fin 2 → ℚ := ![5, 6]

/-- Two-point witness pair, non-degenerate: `(0,0) ↦ (10, 30)` and
`(2, 4) ↦ (18, 34)`. -/
def pW1 : RefPoint := ⟨⟨0, 0⟩, ⟨10, 30⟩⟩

/-- Second point of the two-point witness pair. -/
def pW2 : RefPoint := ⟨⟨2, 4⟩, ⟨18, 34⟩⟩

/-- The state holding the two-point witness pair. -/
def stW2 : GISState := ⟨[pW1, pW2], false, none⟩

/-- One identical-points pair member for the degenerate two-point case. -/
def pDup : RefPoint := ⟨⟨7, 8⟩, ⟨50, 60⟩⟩

/-- Three non-collinear points generated exactly by
`lat = x + 2y + 3`, `lng = 4x + 5y + 6`. -/
def ptsExact : List RefPoint :=
  [⟨⟨0, 0⟩, ⟨3, 6⟩⟩, ⟨⟨1, 0⟩, ⟨4, 10⟩⟩, ⟨⟨0, 1⟩, ⟨5, 11⟩⟩]

/-- A state holding `ptsExact`. -/
def stExact : GISState := ⟨ptsExact, false, none⟩

/-- The transform fitted exactly through `ptsExact`. -/
def tExact : AffineT := ⟨1, 2, 3, 4, 5, 6⟩

/-- The `EJS` transform produced by the two-point branch on
`pHor1`, `pHor2`: division by the zero pixel delta `Δy` yields
`Infinity`, and `0 − Infinity·0` yields `NaN`. -/
def tHorE : EAffineT := ⟨.fin 0, .inf, .nan, .fin (1/10), .fin 0, .fin 0⟩

/-- Source `leastSquares` with the final contents of the arrays made explicit:
the caller-supplied `A` and `b` are only read (no element of either is
ever assigned), while the locally built `AtA`/`Atb` are handed to
`gaussianElimination`, which mutates them in place; the final contents of
`A` and `b` are therefore their initial contents. -/
def leastSquaresSt {d : ℕ} (A : List (Fin d → ℚ)) (b : List ℚ) :
    Option (Fin d → ℚ) × (List (Fin d → ℚ) × List ℚ) :=
  let AtA : Fin d → Fin d → ℚ :=
    fun i j => (A.map (fun row => row i * row j)).foldl (· + ·) 0
  let Atb : Fin d → ℚ :=
    fun i => (List.zipWith (fun row v => row i * v) A b).foldl (· + ·) 0
  ((gaussianEliminationSt AtA Atb).1, (A, b))

/-- Predicate: `x` solves every equation of the system `(A, b)`. -/
def solves {n : ℕ} (st : LinSt n) (x : Fin n → ℚ) : Prop :=
  ∀ r, ∑ j, st.1 r j * x j = st.2 r

/-- Elimination invariant: all below-diagonal entries in columns `< i`
are zero. -/
def InvZ {n : ℕ} (i : ℕ) (A : Fin n → Fin n → ℚ) : Prop :=
  ∀ r c : Fin n, (c : ℕ) < i → (c : ℕ) < (r : ℕ) → A r c = 0

/-- Diagonal entries in rows `< i` are nonzero. -/
def DiagNZ {n : ℕ} (i : ℕ) (A : Fin n → Fin n → ℚ) : Prop :=
  ∀ r : Fin n, (r : ℕ) < i → A r r ≠ 0

theorem tol_pos : 0 < tol := by norm_num [tol]

theorem foldl_add_shift (l : List ℚ) (c : ℚ) :
    l.foldl (· + ·) c = c + l.foldl (· + ·) 0 := by
  induction l generalizing c with
  | nil => simp
  | cons a tl ih =>
    simp only [List.foldl_cons]
    rw [ih (c + a), ih (0 + a)]
    ring

theorem foldl_add_map {α : Type} [Inhabited α] (F : α → ℚ) (l : List α) :
    (l.map F).foldl (· + ·) 0 =
      ∑ k ∈ Finset.range l.length, F (l.getD k default) := by
  induction l with
  | nil => simp
  | cons a tl ih =>
    simp only [List.map_cons, List.foldl_cons, List.length_cons]
    rw [foldl_add_shift, zero_add, ih, Finset.sum_range_succ']
    simp [List.getD]
    exact add_comm _ _

theorem maxRow_foldl_spec {n : ℕ} (A : Fin n → Fin n → ℚ) (i : Fin n)
    (l : List (Fin n)) (b0 : Fin n) :
    (l.foldl (fun best k => if |A best i| < |A k i| then k else best) b0 = b0 ∨
      l.foldl (fun best k => if |A best i| < |A k i| then k else best) b0 ∈ l) ∧
    |A b0 i| ≤ |A (l.foldl (fun best k => if |A best i| < |A k i| then k else best) b0) i| ∧
    ∀ k ∈ l, |A k i| ≤
      |A (l.foldl (fun best k => if |A best i| < |A k i| then k else best) b0) i| := by
  induction l generalizing b0 with
  | nil => exact ⟨Or.inl rfl, le_refl _, by simp⟩
  | cons k tl ih =>
    simp only [List.foldl_cons]
    obtain ⟨hmem, hge, hall⟩ := ih (if |A b0 i| < |A k i| then k else b0)
    refine ⟨?_, ?_, ?_⟩
    · rcases hmem with h | h
      · rw [h]
        by_cases hc : |A b0 i| < |A k i|
        · rw [if_pos hc]; exact Or.inr (List.mem_cons_self k tl)
        · rw [if_neg hc]; exact Or.inl rfl
      · exact Or.inr (List.mem_cons_of_mem k h)
    · refine le_trans ?_ hge
      by_cases hc : |A b0 i| < |A k i|
      · rw [if_pos hc]; exact le_of_lt hc
      · rw [if_neg hc]
    · intro k' hk'
      rcases List.mem_cons.mp hk' with rfl | hmem'
      · refine le_trans ?_ hge
        by_cases hc : |A b0 i| < |A k' i|
        · rw [if_pos hc]
        · rw [if_neg hc]; exact le_of_not_lt hc
      · exact hall k' hmem'

theorem maxRowIdx_le {n : ℕ} (A : Fin n → Fin n → ℚ) (i : Fin n) :
    i ≤ maxRowIdx A i := by
  unfold maxRowIdx
  rcases (maxRow_foldl_spec A i ((List.finRange n).filter (fun k => i < k)) i).1
    with h | h
  · rw [h]
  · have hd := (List.mem_filter.mp h).2
    exact le_of_lt (of_decide_eq_true hd)

theorem maxRowIdx_max {n : ℕ} (A : Fin n → Fin n → ℚ) (i : Fin n)
    (k : Fin n) (hk : i ≤ k) : |A k i| ≤ |A (maxRowIdx A i) i| := by
  unfold maxRowIdx
  rcases eq_or_lt_of_le hk with rfl | hlt
  · exact (maxRow_foldl_spec A i _ i).2.1
  · exact (maxRow_foldl_spec A i _ i).2.2 k
      (List.mem_filter.mpr ⟨List.mem_finRange k, decide_eq_true hlt⟩)

theorem swapRows_swapRows {n : ℕ} (A : Fin n → Fin n → ℚ) (r s : Fin n) :
    swapRows (swapRows A r s) r s = A := by
  funext k j
  unfold swapRows
  by_cases h1 : k = r <;> by_cases h2 : k = s <;> simp_all

theorem swapVec_swapVec {n : ℕ} (b : Fin n → ℚ) (r s : Fin n) :
    swapVec (swapVec b r s) r s = b := by
  funext k
  unfold swapVec
  by_cases h1 : k = r <;> by_cases h2 : k = s <;> simp_all

theorem swap_solves_mp {n : ℕ} (A : Fin n → Fin n → ℚ) (b : Fin n → ℚ)
    (x : Fin n → ℚ) (r s : Fin n) (h : solves (A, b) x) :
    solves (swapRows A r s, swapVec b r s) x := by
  intro k
  simp only [swapRows, swapVec]
  by_cases hkr : k = r
  · simp only [hkr, if_true, eq_self_iff_true]; exact h s
  · by_cases hks : k = s
    · subst hks
      simp only [if_neg hkr, if_pos rfl]; exact h r
    · simp only [if_neg hkr, if_neg hks]; exact h k

theorem swap_solves {n : ℕ} (A : Fin n → Fin n → ℚ) (b : Fin n → ℚ)
    (x : Fin n → ℚ) (r s : Fin n) :
    solves (swapRows A r s, swapVec b r s) x ↔ solves (A, b) x := by
  constructor
  · intro h
    have h2 := swap_solves_mp (swapRows A r s) (swapVec b r s) x r s h
    rwa [swapRows_swapRows, swapVec_swapVec] at h2
  · exact swap_solves_mp A b x r s

theorem swap_invZ {n : ℕ} (iN : ℕ) (A : Fin n → Fin n → ℚ) (r s : Fin n)
    (hr : iN ≤ (r : ℕ)) (hs : iN ≤ (s : ℕ)) (h : InvZ iN A) :
    InvZ iN (swapRows A r s) := by
  intro rr c hc hcr
  unfold swapRows
  by_cases h1 : rr = r
  · simp only [h1, if_true, eq_self_iff_true]
    exact h s c hc (lt_of_lt_of_le hc hs)
  · by_cases h2 : rr = s
    · subst h2
      simp only [if_neg h1, if_pos rfl]
      exact h r c hc (lt_of_lt_of_le hc hr)
    · simp only [if_neg h1, if_neg h2]
      exact h rr c hc hcr

theorem row_sum_drop {n : ℕ} (A₁ : Fin n → Fin n → ℚ) (i : Fin n)
    (hInv : InvZ (i : ℕ) A₁) (x : Fin n → ℚ) :
    ∑ j, (if i ≤ j then A₁ i j * x j else 0) = ∑ j, A₁ i j * x j := by
  rw [← Finset.sum_filter]
  apply Finset.sum_subset (Finset.filter_subset _ _)
  intro j _ hj
  have hij : ¬ i ≤ j := by simpa using hj
  have hji : (j : ℕ) < (i : ℕ) := not_le.mp hij
  rw [hInv i j hji hji, zero_mul]

theorem elim_row_sum {n : ℕ} (A₁ : Fin n → Fin n → ℚ) (i : Fin n)
    (hInv : InvZ (i : ℕ) A₁) (x : Fin n → ℚ) (r : Fin n) (hr : i < r) :
    ∑ j, (if i < r ∧ i ≤ j then A₁ r j - A₁ r i / A₁ i i * A₁ i j else A₁ r j) * x j
      = (∑ j, A₁ r j * x j) - A₁ r i / A₁ i i * ∑ j, A₁ i j * x j := by
  have hstep : ∀ j,
      (if i < r ∧ i ≤ j then A₁ r j - A₁ r i / A₁ i i * A₁ i j else A₁ r j) * x j
        = A₁ r j * x j - (if i ≤ j then A₁ r i / A₁ i i * (A₁ i j * x j) else 0) := by
    intro j
    by_cases hj : i ≤ j
    · rw [if_pos ⟨hr, hj⟩, if_pos hj]; ring
    · rw [if_neg (fun hc => hj hc.2), if_neg hj]; ring
  rw [Finset.sum_congr rfl (fun j _ => hstep j), Finset.sum_sub_distrib]
  have hpull : ∀ j : Fin n,
      (if i ≤ j then A₁ r i / A₁ i i * (A₁ i j * x j) else 0)
        = A₁ r i / A₁ i i * (if i ≤ j then A₁ i j * x j else 0) := by
    intro j; by_cases hj : i ≤ j <;> simp [hj]
  rw [Finset.sum_congr rfl (fun j _ => hpull j), ← Finset.mul_sum,
    row_sum_drop A₁ i hInv x]

theorem elimStep_true_spec {n : ℕ} (i : Fin n) (st st' : LinSt n)
    (hInv : InvZ (i : ℕ) st.1) (h : elimStep i st = (true, st')) :
    InvZ ((i : ℕ) + 1) st'.1 ∧
    (∀ r : Fin n, (r : ℕ) < (i : ℕ) → st'.1 r = st.1 r ∧ st'.2 r = st.2 r) ∧
    st'.1 i i ≠ 0 ∧
    (∀ x, solves st x ↔ solves st' x) := by
  have him : (i : ℕ) ≤ ((maxRowIdx st.1 i : Fin n) : ℕ) := maxRowIdx_le st.1 i
  simp only [elimStep] at h
  set m := maxRowIdx st.1 i with hm
  set A₁ := swapRows st.1 i m with hA1
  set b₁ := swapVec st.2 i m with hb1
  have hInv₁ : InvZ (i : ℕ) A₁ := swap_invZ (i : ℕ) st.1 i m (le_refl _) him hInv
  by_cases hp : |A₁ i i| < tol
  · rw [if_pos hp] at h
    exact absurd (congrArg Prod.fst h) (by simp)
  · rw [if_neg hp] at h
    have hpiv : A₁ i i ≠ 0 := by
      intro h0
      rw [h0] at hp
      simp only [abs_zero] at hp
      exact hp tol_pos
    have hA2 : st'.1 = fun k j =>
        if i < k ∧ i ≤ j then A₁ k j - A₁ k i / A₁ i i * A₁ i j else A₁ k j := by
      have := congrArg Prod.snd h
      simp only at this
      rw [← this]
    have hb2 : st'.2 = fun k =>
        if i < k then b₁ k - A₁ k i / A₁ i i * b₁ i else b₁ k := by
      have := congrArg Prod.snd h
      simp only at this
      rw [← this]
    refine ⟨?_, ?_, ?_, ?_⟩
    · -- the invariant advances to column i+1
      intro r c hc hcr
      simp only [hA2]
      rcases Nat.lt_succ_iff_lt_or_eq.mp hc with hci | hci
      · have hnc : ¬(i < r ∧ i ≤ c) := by
          rintro ⟨-, hic⟩
          simp only [Fin.le_def] at hic
          omega
        rw [if_neg hnc]
        exact hInv₁ r c hci hcr
      · have hce : c = i := Fin.ext hci
        subst hce
        have hcr' : c < r := by simp only [Fin.lt_def]; omega
        rw [if_pos ⟨hcr', le_refl c⟩, div_mul_cancel₀ _ hpiv, sub_self]
    · -- rows before i are untouched
      intro r hri
      have hrne : r ≠ i := fun hcon => by rw [hcon] at hri; omega
      have hrnm : r ≠ m := fun hcon => by
        rw [hcon] at hri
        omega
      constructor
      · funext j
        simp only [hA2]
        have hnc : ¬(i < r ∧ i ≤ j) := by
          rintro ⟨hir, -⟩
          simp only [Fin.lt_def] at hir
          omega
        rw [if_neg hnc, hA1]
        unfold swapRows
        rw [if_neg hrne, if_neg hrnm]
      · simp only [hb2]
        have hnc : ¬(i < r) := by
          intro hcon
          simp only [Fin.lt_def] at hcon
          omega
        rw [if_neg hnc, hb1]
        unfold swapVec
        rw [if_neg hrne, if_neg hrnm]
    · -- the pivot survives
      simp only [hA2]
      rw [if_neg (fun hcon => lt_irrefl i hcon.1)]
      exact hpiv
    · -- one elimination pass preserves the solution set
      intro x
      rw [show solves st x ↔ solves (A₁, b₁) x from (swap_solves st.1 st.2 x i m).symm]
      constructor
      · intro hs r
        simp only [hA2, hb2]
        by_cases hir : i < r
        · rw [elim_row_sum A₁ i hInv₁ x r hir, hs r, hs i, if_pos hir]
        · have : ∀ j, (if i < r ∧ i ≤ j then A₁ r j - A₁ r i / A₁ i i * A₁ i j
              else A₁ r j) = A₁ r j := by
            intro j; rw [if_neg (fun hcon => hir hcon.1)]
          rw [Finset.sum_congr rfl (fun j _ => by rw [this j]), if_neg hir]
          exact hs r
      · intro hs
        have hsi : ∑ j, A₁ i j * x j = b₁ i := by
          have := hs i
          simp only [hA2, hb2] at this
          rw [if_neg (lt_irrefl i)] at this
          rw [Finset.sum_congr rfl (fun j _ => by
            rw [if_neg (fun hcon => lt_irrefl i hcon.1)])] at this
          exact this
        intro r
        by_cases hir : i < r
        · have := hs r
          simp only [hA2, hb2] at this
          rw [elim_row_sum A₁ i hInv₁ x r hir, if_pos hir, hsi] at this
          linarith
        · have := hs r
          simp only [hA2, hb2] at this
          rw [Finset.sum_congr rfl (fun j _ => by
            rw [if_neg (fun hcon => hir hcon.1)]), if_neg hir] at this
          exact this

theorem forwardAux_ok {n : ℕ} :
    ∀ (fuel iN : ℕ) (st st' : LinSt n),
      InvZ iN st.1 → DiagNZ iN st.1 → n ≤ fuel + iN →
      forwardAux fuel iN st = (true, st') →
      InvZ n st'.1 ∧ DiagNZ n st'.1 ∧ (∀ x, solves st x ↔ solves st' x) := by
  intro fuel
  induction fuel with
  | zero =>
    intro iN st st' hInv hD hle h
    simp only [forwardAux] at h
    injection h with h1 h2
    subst h2
    exact ⟨fun r c hc hcr => hInv r c (lt_of_lt_of_le hc (by omega)) hcr,
      fun r hr => hD r (lt_of_lt_of_le hr (by omega)),
      fun x => Iff.rfl⟩
  | succ fuel ih =>
    intro iN st st' hInv hD hle h
    simp only [forwardAux] at h
    by_cases hin : iN < n
    · rw [dif_pos hin] at h
      by_cases hok : (elimStep ⟨iN, hin⟩ st).1 = true
      · rw [if_pos hok] at h
        have hstep : elimStep ⟨iN, hin⟩ st = (true, (elimStep ⟨iN, hin⟩ st).2) := by
          rw [← hok]
        obtain ⟨hI1, hRows, hPiv, hIff⟩ :=
          elimStep_true_spec ⟨iN, hin⟩ st (elimStep ⟨iN, hin⟩ st).2 hInv hstep
        have hD1 : DiagNZ (iN + 1) (elimStep ⟨iN, hin⟩ st).2.1 := by
          intro r hr
          rcases Nat.lt_succ_iff_lt_or_eq.mp hr with hlt | heq
          · rw [(hRows r hlt).1]
            exact hD r hlt
          · have hre : r = ⟨iN, hin⟩ := Fin.ext heq
            rw [hre]
            exact hPiv
        obtain ⟨hI, hDn, hIff2⟩ := ih (iN + 1) (elimStep ⟨iN, hin⟩ st).2 st' hI1 hD1
          (by omega) h
        exact ⟨hI, hDn, fun x => (hIff x).trans (hIff2 x)⟩
      · rw [if_neg hok] at h
        injection h with h1 h2
        exact absurd h1 (by simp)
    · rw [dif_neg hin] at h
      injection h with h1 h2
      subst h2
      exact ⟨fun r c hc hcr => hInv r c (lt_of_lt_of_le hc (by omega)) hcr,
        fun r hr => hD r (lt_of_lt_of_le hr (by omega)),
        fun x => Iff.rfl⟩

theorem backSubAux_frame {n : ℕ} (A : Fin n → Fin n → ℚ) (b : Fin n → ℚ) :
    ∀ (m : ℕ) (x : Fin n → ℚ) (j : Fin n), m ≤ (j : ℕ) →
      backSubAux A b m x j = x j := by
  intro m
  induction m with
  | zero => intro x j h; rfl
  | succ m ih =>
    intro x j hj
    simp only [backSubAux]
    by_cases hmn : m < n
    · have hne : j ≠ (⟨m, hmn⟩ : Fin n) := by
        intro hcon
        rw [hcon] at hj
        exact Nat.not_succ_le_self m hj
      rw [dif_pos hmn, ih _ j (by omega), Function.update_noteq hne]
    · rw [dif_neg hmn]
      exact ih x j (by omega)

theorem backSubAux_spec {n : ℕ} (A : Fin n → Fin n → ℚ) (b : Fin n → ℚ) :
    ∀ (m : ℕ) (x : Fin n → ℚ) (i : Fin n), (i : ℕ) < m →
      backSubAux A b m x i =
        (b i - ∑ j ∈ Finset.Ioi i, A i j * backSubAux A b m x j) / A i i := by
  intro m
  induction m with
  | zero => intro x i h; exact absurd h (Nat.not_lt_zero _)
  | succ m ih =>
    intro x i hi
    by_cases hmn : m < n
    · simp only [backSubAux, dif_pos hmn]
      rcases Nat.lt_succ_iff_lt_or_eq.mp hi with him | him
      · exact ih _ i him
      · have hie : (⟨m, hmn⟩ : Fin n) = i := (Fin.ext him).symm
        rw [hie, backSubAux_frame A b m _ i (le_of_eq him.symm),
          Function.update_same]
        congr 1
        congr 1
        apply Finset.sum_congr rfl
        intro j hj
        have hji : (i : ℕ) < (j : ℕ) := by
          have := Finset.mem_Ioi.mp hj
          exact Fin.lt_def.mp this
        rw [backSubAux_frame A b m _ j (by omega),
          Function.update_noteq (Fin.ne_of_val_ne (by omega))]
    · simp only [backSubAux, dif_neg hmn]
      exact ih x i (by omega)

theorem backSub_spec {n : ℕ} (A : Fin n → Fin n → ℚ) (b : Fin n → ℚ) (i : Fin n) :
    backSub A b i = (b i - ∑ j ∈ Finset.Ioi i, A i j * backSub A b j) / A i i :=
  backSubAux_spec A b n (fun _ => 0) i i.isLt

theorem backSub_solves {n : ℕ} (A : Fin n → Fin n → ℚ) (b : Fin n → ℚ)
    (hInv : InvZ n A) (hD : DiagNZ n A) : solves (A, b) (backSub A b) := by
  intro r
  have h1 : ∑ j, A r j * backSub A b j
      = ∑ j ∈ Finset.Ici r, A r j * backSub A b j := by
    symm
    apply Finset.sum_subset (Finset.subset_univ _)
    intro j _ hj
    have hjr : (j : ℕ) < (r : ℕ) := by
      have h2 : ¬ r ≤ j := fun hc => hj (Finset.mem_Ici.mpr hc)
      exact Fin.lt_def.mp (not_le.mp h2)
    rw [hInv r j j.isLt hjr, zero_mul]
  rw [show ((A, b) : LinSt n).1 = A from rfl, show ((A, b) : LinSt n).2 = b from rfl]
  rw [h1, ← Finset.Ioi_insert, Finset.sum_insert (by simp)]
  rw [backSub_spec A b r, mul_comm (A r r), div_mul_cancel₀ _ (hD r r.isLt)]
  exact sub_add_cancel _ _

/-- C7: for every square system `(A, b)`, (1) a returned solution `x`
satisfies `A·x = b` over exact arithmetic (and the only other outcome is
the `SingularMatrix` signal `none`); (2) each pivot step selects the row
at or below the diagonal maximising the absolute value in the pivot
column, swaps it into place, and fails exactly when that chosen pivot's
magnitude is below `1e-10`; (3) back substitution computes
`x[i] = (b[i] − Σ_{j>i} A[i][j]·x[j]) / A[i][i]` from the last row to
the first. -/
theorem gaussianElimination_spec {n : ℕ} (A : Fin n → Fin n → ℚ) (b : Fin n → ℚ) :
    (∀ x, gaussianElimination A b = some x → ∀ r, ∑ j, A r j * x j = b r) ∧
    (∀ (st : LinSt n) (i : Fin n),
      i ≤ maxRowIdx st.1 i ∧
      (∀ k, i ≤ k → |st.1 k i| ≤ |st.1 (maxRowIdx st.1 i) i|) ∧
      ((elimStep i st).1 = false ↔ |st.1 (maxRowIdx st.1 i) i| < tol)) ∧
    (∀ i : Fin n, backSub A b i =
      (b i - ∑ j ∈ Finset.Ioi i, A i j * backSub A b j) / A i i) := by
  refine ⟨?_, ?_, fun i => backSub_spec A b i⟩
  · intro x hx r
    simp only [gaussianElimination, gaussianEliminationSt] at hx
    by_cases hok : (forward (A, b)).1 = true
    · rw [if_pos hok] at hx
      have hfwd : forwardAux n 0 (A, b) = (true, (forward (A, b)).2) := by
        show forward (A, b) = _
        rw [← hok]
      obtain ⟨hI, hD, hiff⟩ := forwardAux_ok n 0 (A, b) (forward (A, b)).2
        (fun r c hc _ => absurd hc (Nat.not_lt_zero _))
        (fun r hr => absurd hr (Nat.not_lt_zero _)) (by omega) hfwd
      have hsol := backSub_solves (forward (A, b)).2.1 (forward (A, b)).2.2 hI hD
      have hsolA := (hiff (backSub (forward (A, b)).2.1 (forward (A, b)).2.2)).mpr hsol
      rw [(Option.some.inj hx).symm]
      exact hsolA r
    · rw [if_neg hok] at hx
      exact absurd hx (by simp)
  · intro st i
    refine ⟨maxRowIdx_le st.1 i, fun k hk => maxRowIdx_max st.1 i k hk, ?_⟩
    have hApp : swapRows st.1 i (maxRowIdx st.1 i) i i = st.1 (maxRowIdx st.1 i) i := by
      unfold swapRows
      rw [if_pos rfl]
    simp only [elimStep]
    by_cases hp : |swapRows st.1 i (maxRowIdx st.1 i) i i| < tol
    · rw [if_pos hp]
      exact iff_of_true rfl (hApp ▸ hp)
    · rw [if_neg hp]
      exact iff_of_false (by simp) (hApp ▸ hp)

theorem calculateTransform_two (st : GISState) (p1 p2 : RefPoint)
    (hst : st.referencePoints = [p1, p2]) :
    calculateTransform st =
      if |p2.pixel.x - p1.pixel.x| < tol ∧ |p2.pixel.y - p1.pixel.y| < tol then
        { st with isCalibrated := false }
      else
        { st with transform := some (twoPointSpec p1 p2), isCalibrated := true } := by
  unfold calculateTransform
  rw [hst]
  have hlen : ([p1, p2] : List RefPoint).length = 2 := rfl
  rw [hlen, if_neg (by norm_num), if_pos rfl]
  simp only [List.getD_cons_zero, List.getD_cons_succ]
  unfold twoPointSpec
  rfl

/-- C2: if both pixel deltas are below `1e-10` (in particular for two
identical reference points), the two-point refit is rejected as
degenerate: in the JS-number model no transform is computed at all (so no
NaN can be produced or propagated and the branch returns normally), and
the state ends with `isCalibrated = false` and an untouched transform. -/
theorem two_point_degenerate (p1 p2 : RefPoint)
    (hx : |p2.pixel.x - p1.pixel.x| < tol) (hy : |p2.pixel.y - p1.pixel.y| < tol) :
    calibrate2E p1 p2 = none ∧
    ∀ st : GISState, st.referencePoints = [p1, p2] →
      (calculateTransform st).isCalibrated = false ∧
      (calculateTransform st).transform = st.transform := by
  constructor
  · unfold calibrate2E
    rw [if_pos ⟨hx, hy⟩]
  · intro st hst
    rw [calculateTransform_two st p1 p2 hst, if_pos ⟨hx, hy⟩]
    exact ⟨rfl, rfl⟩

theorem two_point_degenerate_witness :
    |pDup.pixel.x - pDup.pixel.x| < tol ∧ |pDup.pixel.y - pDup.pixel.y| < tol ∧
    calibrate2E pDup pDup = none ∧
    (calculateTransform ⟨[pDup, pDup], true, some tId⟩).isCalibrated = false := by
  have hx : |pDup.pixel.x - pDup.pixel.x| < tol := by norm_num [tol]
  have hy : |pDup.pixel.y - pDup.pixel.y| < tol := by norm_num [tol]
  obtain ⟨h1, h2⟩ := two_point_degenerate pDup pDup hx hy
  exact ⟨hx, hy, h1, (h2 ⟨[pDup, pDup], true, some tId⟩ rfl).1⟩

/-- C4: for exactly two correspondences whose pixel deltas are not
both below the tolerance, the refit stores exactly the restricted
closed-form transform of the spec (`a = 0`, `b = Δlat/Δy`,
`c = lat₁ − b·y₁`, `d = Δlng/Δx`, `e = 0`, `f = lng₁ − d·x₁`) and sets
the state to Calibrated. -/
theorem two_point_formula (st : GISState) (p1 p2 : RefPoint)
    (hst : st.referencePoints = [p1, p2])
    (hnd : ¬(|p2.pixel.x - p1.pixel.x| < tol ∧ |p2.pixel.y - p1.pixel.y| < tol)) :
    calculateTransform st =
      { st with transform := some (twoPointSpec p1 p2), isCalibrated := true } := by
  rw [calculateTransform_two st p1 p2 hst, if_neg hnd]

theorem two_point_formula_witness :
    stW2.referencePoints = [pW1, pW2] ∧
    ¬(|pW2.pixel.x - pW1.pixel.x| < tol ∧ |pW2.pixel.y - pW1.pixel.y| < tol) ∧
    calculateTransform stW2 =
      { stW2 with transform := some (twoPointSpec pW1 pW2), isCalibrated := true } := by
  have hnd : ¬(|pW2.pixel.x - pW1.pixel.x| < tol ∧ |pW2.pixel.y - pW1.pixel.y| < tol) := by
    norm_num [pW1, pW2, tol]
  exact ⟨rfl, hnd, two_point_formula stW2 pW1 pW2 rfl hnd⟩

/-- C1 (code bug): on three collinear reference points the
least-squares fit signals `SingularMatrix` (`none`), and
`calculateAffineTransform` therefore leaves the transform untouched
(`none` here) — yet `calculateTransform` unconditionally ends with
`isCalibrated = true`, so the failed fit does not leave the state
Uncalibrated as the spec requires. -/
theorem collinear_fit_bug :
    leastSquares (collinearState.referencePoints.map designRow)
        (collinearState.referencePoints.map (fun p => p.geo.lat)) = none ∧
    (calculateTransform collinearState).isCalibrated = true ∧
    (calculateTransform collinearState).transform = none := by
  with_unfolding_all decide

/-- C3: a pair of reference points with `|Δy| < 1e-10 ≤ |Δx|` and
differing latitudes passes the degeneracy guard (which requires both
deltas to be small): the branch divides by the near-zero `Δy`, stores a
transform whose `b` coefficient is `Infinity` (and whose `c` is `NaN`),
sets the state to Calibrated, and the forward conversion then returns a
non-finite latitude instead of failing. -/
theorem one_sided_degenerate_nonfinite :
    |pHor2.pixel.y - pHor1.pixel.y| < tol ∧
    ¬ |pHor2.pixel.x - pHor1.pixel.x| < tol ∧
    pHor1.geo.lat ≠ pHor2.geo.lat ∧
    calibrate2E pHor1 pHor2 = some tHorE ∧
    tHorE.b.isFinite = false ∧
    (pixelToGeoE tHorE (.fin 5) (.fin 5)).1.isFinite = false ∧
    (calculateTransform stHor).isCalibrated = true ∧
    (pixelToGeo (calculateTransform stHor) 5 5).isSome = true := by
  with_unfolding_all decide

/-- C5: for a calibrated state whose transform has `|det| ≥ 1e-10`,
`geoToPixel` after `pixelToGeo` returns the original pixel point exactly
(over the exact-rational model of the arithmetic). -/
theorem round_trip (st : GISState) (t : AffineT) (hc : st.isCalibrated = true)
    (ht : st.transform = some t) (hdet : tol ≤ |det t|) (x y : ℚ) :
    (pixelToGeo st x y).bind (fun g => geoToPixel st g.lat g.lng) = some ⟨x, y⟩ := by
  obtain ⟨pts, cal, tr⟩ := st
  simp only at hc ht
  subst hc
  subst ht
  have hdetne : t.a * t.e - t.b * t.d ≠ 0 := by
    intro h0
    unfold det at hdet
    rw [h0] at hdet
    simp only [abs_zero] at hdet
    exact absurd hdet (not_le.mpr tol_pos)
  unfold pixelToGeo geoToPixel
  simp only [Option.some_bind]
  rw [if_neg (not_lt.mpr hdet)]
  congr 1
  have e1 : (t.e * ((t.a * x + t.b * y + t.c) - t.c)
      - t.b * ((t.d * x + t.e * y + t.f) - t.f)) / det t = x := by
    unfold det
    rw [div_eq_iff hdetne]
    ring
  have e2 : (t.a * ((t.d * x + t.e * y + t.f) - t.f)
      - t.d * ((t.a * x + t.b * y + t.c) - t.c)) / det t = y := by
    unfold det
    rw [div_eq_iff hdetne]
    ring
  rw [e1, e2]

theorem round_trip_witness :
    stCal.isCalibrated = true ∧ stCal.transform = some tId ∧ tol ≤ |det tId| ∧
    (pixelToGeo stCal 3 4).bind (fun g => geoToPixel stCal g.lat g.lng)
      = some ⟨3, 4⟩ := by
  refine ⟨rfl, rfl, ?_, round_trip stCal tId rfl rfl ?_ 3 4⟩ <;>
    norm_num [det, tId, tol]

/-- C6: `geoToPixel` returns `none` exactly when the state is
Uncalibrated (no flag or no transform) or `|a·e − b·d| < 1e-10`, and
otherwise returns the unique solution of the 2×2 linear system (Cramer's
rule); `pixelToGeo` returns `none` exactly when the state is
Uncalibrated, and otherwise the forward affine image. -/
theorem conversion_characterisation (st : GISState) :
    (∀ lat lng x y, Uncalibrated st →
      geoToPixel st lat lng = none ∧ pixelToGeo st x y = none) ∧
    (∀ t, st.isCalibrated = true → st.transform = some t →
      (∀ lat lng, (geoToPixel st lat lng = none ↔ |det t| < tol)) ∧
      (∀ lat lng p, geoToPixel st lat lng = some p →
        (t.a * p.x + t.b * p.y + t.c = lat ∧ t.d * p.x + t.e * p.y + t.f = lng) ∧
        ∀ q : PixelPoint, t.a * q.x + t.b * q.y + t.c = lat ∧
          t.d * q.x + t.e * q.y + t.f = lng → q = p) ∧
      (∀ x y, pixelToGeo st x y =
        some ⟨t.a * x + t.b * y + t.c, t.d * x + t.e * y + t.f⟩)) := by
  obtain ⟨pts, cal, tr⟩ := st
  constructor
  · intro lat lng x y hU
    rcases hU with hU | hU <;> simp only at hU <;> subst hU
    · cases tr <;> exact ⟨rfl, rfl⟩
    · cases cal <;> exact ⟨rfl, rfl⟩
  · intro t hc ht
    simp only at hc ht
    subst hc
    subst ht
    have hgeo : ∀ lat lng : ℚ, geoToPixel ⟨pts, true, some t⟩ lat lng =
        if |det t| < tol then none
        else some ⟨(t.e * (lat - t.c) - t.b * (lng - t.f)) / det t,
                   (t.a * (lng - t.f) - t.d * (lat - t.c)) / det t⟩ :=
      fun lat lng => rfl
    refine ⟨?_, ?_, fun x y => rfl⟩
    · intro lat lng
      rw [hgeo]
      by_cases hdet : |det t| < tol
      · rw [if_pos hdet]
        exact iff_of_true rfl hdet
      · rw [if_neg hdet]
        exact iff_of_false (by simp) hdet
    · intro lat lng p hp
      rw [hgeo] at hp
      by_cases hdet : |det t| < tol
      · rw [if_pos hdet] at hp
        exact absurd hp (by simp)
      · rw [if_neg hdet] at hp
        have hdetne : t.a * t.e - t.b * t.d ≠ 0 := by
          intro h0
          apply hdet
          unfold det
          rw [h0]
          simpa using tol_pos
        obtain rfl : p = ⟨(t.e * (lat - t.c) - t.b * (lng - t.f)) / det t,
            (t.a * (lng - t.f) - t.d * (lat - t.c)) / det t⟩ :=
          (Option.some.inj hp).symm
        refine ⟨⟨?_, ?_⟩, ?_⟩
        · show t.a * ((t.e * (lat - t.c) - t.b * (lng - t.f)) / det t)
            + t.b * ((t.a * (lng - t.f) - t.d * (lat - t.c)) / det t) + t.c = lat
          unfold det
          field_simp
          ring
        · show t.d * ((t.e * (lat - t.c) - t.b * (lng - t.f)) / det t)
            + t.e * ((t.a * (lng - t.f) - t.d * (lat - t.c)) / det t) + t.f = lng
          unfold det
          field_simp
          ring
        · intro q hq
          obtain ⟨hq1, hq2⟩ := hq
          obtain ⟨qx, qy⟩ := q
          simp only at hq1 hq2
          have hx : qx = (t.e * (lat - t.c) - t.b * (lng - t.f)) / det t := by
            unfold det
            rw [eq_div_iff hdetne, ← hq1, ← hq2]
            ring
          have hy : qy = (t.a * (lng - t.f) - t.d * (lat - t.c)) / det t := by
            unfold det
            rw [eq_div_iff hdetne, ← hq1, ← hq2]
            ring
          simp only [PixelPoint.mk.injEq]
          exact ⟨hx, hy⟩

theorem conversion_characterisation_witness :
    geoToPixel stCal 3 4 = some ⟨3, 4⟩ ∧ pixelToGeo stCal 3 4 = some ⟨3, 4⟩ := by
  obtain ⟨hiff, hsome, hfwd⟩ := (conversion_characterisation stCal).2 tId rfl rfl
  constructor
  · have hne : geoToPixel stCal 3 4 ≠ none := by
      intro hnone
      have hcon := (hiff 3 4).mp hnone
      norm_num [det, tId, tol] at hcon
    rcases hE : geoToPixel stCal 3 4 with _ | p
    · exact absurd hE hne
    · obtain ⟨⟨h1, h2⟩, -⟩ := hsome 3 4 p hE
      obtain ⟨px, py⟩ := p
      simp only [tId] at h1 h2
      norm_num at h1 h2
      rw [h1, h2]
  · have := hfwd 3 4
    rw [this]
    norm_num [tId]

/-- C8 counterexample: the Gaussian solver mutates the arrays its
caller hands it — after the call on `mA`, `mb` (whose elimination swaps
the two rows), the caller-visible contents of both arrays differ from
the originals. -/
theorem solver_mutates_counterexample :
    (gaussianEliminationSt mA mb).2.1 0 0 ≠ mA 0 0 ∧
    (gaussianEliminationSt mA mb).2.2 0 ≠ mb 0 := by
  with_unfolding_all decide

/-- C8 amended: `gaussianElimination` mutates the arrays passed to
it, but its only caller `leastSquares` passes freshly built `AᵗA`/`Aᵗb`
copies and never writes to the design matrix `A` and vector `b` it was
given, so those are unchanged after the call. -/
theorem leastSquares_frame {d : ℕ} (A : List (Fin d → ℚ)) (b : List ℚ) :
    (leastSquaresSt A b).2 = (A, b) ∧ (leastSquaresSt A b).1 = leastSquares A b :=
  ⟨rfl, rfl⟩

theorem calculateAffineTransform_eq (st : GISState) :
    calculateAffineTransform st =
      match leastSquares (st.referencePoints.map designRow)
          (st.referencePoints.map (fun p => p.geo.lat)),
        leastSquares (st.referencePoints.map designRow)
          (st.referencePoints.map (fun p => p.geo.lng)) with
      | some latC, some lngC =>
        { st with transform := some ⟨latC 0, latC 1, latC 2, lngC 0, lngC 1, lngC 2⟩ }
      | _, _ => st := rfl

theorem leastSquares_map_eq (pts : List RefPoint) (g : RefPoint → ℚ) :
    leastSquares (pts.map designRow) (pts.map g)
      = gaussianElimination (normalMatrix pts) (normalVector pts g) := by
  unfold leastSquares
  have hA : (fun i j => (((pts.map designRow).map (fun row => row i * row j)).foldl
      (· + ·) 0 : ℚ)) = normalMatrix pts := by
    funext i j
    rw [List.map_map, foldl_add_map]
    rfl
  have hb : (fun i => ((List.zipWith (fun row v => row i * v)
      (pts.map designRow) (pts.map g)).foldl (· + ·) 0 : ℚ)) = normalVector pts g := by
    funext i
    rw [List.zipWith_map, List.zipWith_same, foldl_add_map]
    rfl
  rw [hA, hb]

/-- C9: for `n ≥ 3` correspondences the fit is by the
normal-equations method, independently per axis: `calculateTransform`
delegates to `calculateAffineTransform`, which solves
`AᵗA x = Aᵗb` (3×3 sums over all points, design rows `[x, y, 1]`) with
the Gaussian solver once for latitude and once for longitude, and
combines the two coefficient triples into the six transform
coefficients (leaving the transform untouched when a solve fails). -/
theorem normal_equations (st : GISState) (h3 : 3 ≤ st.referencePoints.length) :
    (∀ t, leastSquaresSpec st.referencePoints = some t →
      calculateAffineTransform st = { st with transform := some t }) ∧
    (leastSquaresSpec st.referencePoints = none → calculateAffineTransform st = st) ∧
    calculateTransform st = { calculateAffineTransform st with isCalibrated := true } := by
  have hlat := leastSquares_map_eq st.referencePoints (fun p => p.geo.lat)
  have hlng := leastSquares_map_eq st.referencePoints (fun p => p.geo.lng)
  refine ⟨?_, ?_, ?_⟩
  · intro t ht
    rw [calculateAffineTransform_eq, hlat, hlng]
    unfold leastSquaresSpec at ht
    obtain ⟨L, hLdef⟩ : ∃ L, gaussianElimination (normalMatrix st.referencePoints)
        (normalVector st.referencePoints (fun p => p.geo.lat)) = L := ⟨_, rfl⟩
    obtain ⟨G, hGdef⟩ : ∃ G, gaussianElimination (normalMatrix st.referencePoints)
        (normalVector st.referencePoints (fun p => p.geo.lng)) = G := ⟨_, rfl⟩
    rw [hLdef, hGdef] at ht ⊢
    rcases L with _ | latC <;> rcases G with _ | lngC
    · exact absurd ht (by simp)
    · exact absurd ht (by simp)
    · exact absurd ht (by simp)
    · have ht2 : (⟨latC 0, latC 1, latC 2, lngC 0, lngC 1, lngC 2⟩ : AffineT) = t :=
        Option.some.inj ht
      show ({ st with
        transform := some ⟨latC 0, latC 1, latC 2, lngC 0, lngC 1, lngC 2⟩ } :
          GISState) = _
      rw [ht2]
  · intro ht
    rw [calculateAffineTransform_eq, hlat, hlng]
    unfold leastSquaresSpec at ht
    obtain ⟨L, hLdef⟩ : ∃ L, gaussianElimination (normalMatrix st.referencePoints)
        (normalVector st.referencePoints (fun p => p.geo.lat)) = L := ⟨_, rfl⟩
    obtain ⟨G, hGdef⟩ : ∃ G, gaussianElimination (normalMatrix st.referencePoints)
        (normalVector st.referencePoints (fun p => p.geo.lng)) = G := ⟨_, rfl⟩
    rw [hLdef, hGdef] at ht ⊢
    rcases L with _ | latC <;> rcases G with _ | lngC
    · rfl
    · rfl
    · rfl
    · exact absurd ht (by simp)
  · unfold calculateTransform
    rw [if_neg (by omega), if_neg (by omega)]

theorem normal_equations_witness :
    3 ≤ stExact.referencePoints.length ∧
    calculateAffineTransform stExact = { stExact with transform := some tExact } := by
  refine ⟨by norm_num [stExact, ptsExact],
    (normal_equations stExact (by norm_num [stExact, ptsExact])).1 tExact ?_⟩
  with_unfolding_all decide

/-- C10: the Haversine distance (Earth radius `6371000` m, degree
inputs converted to radians) vanishes on identical points and is
symmetric in its two points. -/
theorem haversine_props (lat1 lng1 lat2 lng2 : ℝ) :
    haversineDistance lat1 lng1 lat1 lng1 = 0 ∧
    haversineDistance lat1 lng1 lat2 lng2 = haversineDistance lat2 lng2 lat1 lng1 := by
  constructor
  · unfold haversineDistance
    have ha : havA lat1 lng1 lat1 lng1 = 0 := by
      unfold havA toRad
      simp [sub_self]
    rw [ha]
    simp only [Real.sqrt_zero, sub_zero, Real.sqrt_one]
    have hz : atan2 0 1 = 0 := by
      unfold atan2
      have h1 : (⟨1, 0⟩ : ℂ) = 1 := by
        apply Complex.ext <;> simp
      rw [h1, Complex.arg_one]
    rw [hz]
    ring
  · have hA : havA lat1 lng1 lat2 lng2 = havA lat2 lng2 lat1 lng1 := by
      unfold havA toRad
      have hs : ∀ u v : ℝ,
          Real.sin ((u - v) * Real.pi / 180 / 2) * Real.sin ((u - v) * Real.pi / 180 / 2)
            = Real.sin ((v - u) * Real.pi / 180 / 2)
              * Real.sin ((v - u) * Real.pi / 180 / 2) := by
        intro u v
        have he : (u - v) * Real.pi / 180 / 2 = -((v - u) * Real.pi / 180 / 2) := by
          ring
        rw [he, Real.sin_neg]
        ring
      rw [hs lat2 lat1, hs lng2 lng1]
      ring
    unfold haversineDistance
    rw [hA]

theorem gaussianElimination_spec_witness :
    (∑ j, cA 0 j * cx j = cb 0) ∧ (∑ j, cA 1 j * cx j = cb 1) := by
  have h0 : (gaussianElimination cA cb).map (fun f => f 0) = some (2 : ℚ) := by
    with_unfolding_all decide
  have h1 : (gaussianElimination cA cb).map (fun f => f 1) = some (3 : ℚ) := by
    with_unfolding_all decide
  have hS : (gaussianElimination cA cb).isSome = true := by
    with_unfolding_all decide
  have hsome : gaussianElimination cA cb = some cx := by
    obtain ⟨f, hf⟩ := Option.isSome_iff_exists.mp hS
    rw [hf] at h0 h1 ⊢
    simp only [Option.map_some'] at h0 h1
    have h2 : f 0 = 2 := Option.some.inj h0
    have h3 : f 1 = 3 := Option.some.inj h1
    congr 1
    funext j
    fin_cases j
    · simpa [cx] using h2
    · simpa [cx] using h3
  exact ⟨(gaussianElimination_spec cA cb).1 cx hsome 0,
    (gaussianElimination_spec cA cb).1 cx hsome 1⟩

end GIS
